import Mathlib

/-!
Shallow embedding of `src/fastmcp/contrib/selective_tools/selective_tools.py`.

The module has two pieces of logic:
* `parse_tool_names` — parses a URL path segment into a set of tool names
  (or `none` meaning "no selection"), raising `ValueError` on a malformed name;
* `SelectiveToolMiddleware.on_list_tools` — filters the downstream tool list
  against the selection stored in the request context, applying one of four
  `ErrorBehavior` policies when some requested names do not exist.

Strings are modelled at the `List Char` level so that splitting, trimming and
validation are plain structural recursions; Python sets become `Finset String`;
raising an exception becomes returning `.error` of an `Except`.
-/

set_option maxRecDepth 4000

namespace SelectiveTools

/-- A character matched by the separator class `[/,]` in
`re.split(r"[/,]+", path_segment)` (selective_tools.py line 222). -/
def isSepChar (c : Char) : Bool := c == '/' || c == ','

/-- Whitespace as stripped by Python `str.strip()` (selective_tools.py line 225):
the code points CPython flags as whitespace, namely U+0009–U+000D (tab, LF,
vertical tab, form feed, CR), U+001C–U+001F, space, U+0085 (NEL), U+00A0
(no-break space), U+1680, U+2000–U+200A, U+2028, U+2029, U+202F, U+205F and
U+3000. -/
def isSpaceChar (c : Char) : Bool :=
  let n := c.toNat
  decide ((0x09 ≤ n ∧ n ≤ 0x0D) ∨ (0x1C ≤ n ∧ n ≤ 0x1F) ∨ n = 0x20 ∨
    n = 0x85 ∨ n = 0xA0 ∨ n = 0x1680 ∨ (0x2000 ≤ n ∧ n ≤ 0x200A) ∨
    n = 0x2028 ∨ n = 0x2029 ∨ n = 0x202F ∨ n = 0x205F ∨ n = 0x3000)

/-- Splitting a character list at every separator character.  This models
`re.split(r"[/,]+", s)` up to the empty segments between two adjacent
separators: the `+` in the regex merges a run of separators into one split
point, while splitting per character leaves an empty segment between two
adjacent separators.  The very next step of the source
(line 225: strip each segment, drop the ones that become empty) removes
exactly those empty segments, so the composed result is identical. -/
def splitChars : List Char → List (List Char)
  | [] => [[]]
  | c :: cs =>
    if isSepChar c then
      [] :: splitChars cs
    else
      match splitChars cs with
      | [] => [[c]]
      | seg :: rest => (c :: seg) :: rest

/-- Python `str.strip()`: drop leading and trailing whitespace. -/
def trimChars (l : List Char) : List Char :=
  ((l.dropWhile isSpaceChar).reverse.dropWhile isSpaceChar).reverse

/-- The name validity test `re.match(r"^[a-zA-Z_][a-zA-Z0-9_]*$", name)`
(selective_tools.py line 232): a first character that is an ASCII letter or
underscore, followed by ASCII letters, digits or underscores.  (Python's
`$` could also match before a final newline, but segments reaching this test
have been stripped of trailing whitespace, so that case cannot arise.) -/
def validSeg : List Char → Bool
  | [] => false
  | c :: cs => (c.isAlpha || c == '_') && cs.all (fun d => d.isAlphanum || d == '_')

/-- `validSeg` on a `String`, for stating properties of parse results. -/
def validName (s : String) : Bool := validSeg s.toList

/-- Lines 222-225 of the source: split on separators, strip whitespace from
each segment, and drop segments that became empty
(`[name.strip() for name in tool_names if name.strip()]`). -/
def segmentsOf (cs : List Char) : List (List Char) :=
  ((splitChars cs).map trimChars).filter (fun n => !n.isEmpty)

/-- The `ValueError` raised by `parse_tool_names`; its message embeds the
offending segment (`f"Invalid tool name: '{name}'. ..."`), which is the
datum carried here. -/
inductive ParseError where
  | invalidName (offending : String)
deriving DecidableEq

/-- `parse_tool_names(path_segment)` (selective_tools.py lines 192-239):
returns `none` (Python `None`, i.e. Absent) for an empty or whitespace-only
input or when no segments remain after stripping; otherwise validates each
segment in order, failing on the first invalid one, and returns the set of
segments. -/
def parse_tool_names (path_segment : String) : Except ParseError (Option (Finset String)) :=
  let cs := path_segment.toList
  -- `if not path_segment or path_segment.strip() == "": return None`
  if cs = [] ∨ trimChars cs = [] then .ok none
  -- `if not tool_names: return None`
  else if segmentsOf cs = [] then .ok none
  else
    -- `for name in tool_names: if not re.match(...): raise ValueError(...)`
    match (segmentsOf cs).find? (fun n => !(validSeg n)) with
    | some bad => .error (.invalidName (String.mk bad))
    | none => .ok (some (((segmentsOf cs).map (fun n => String.mk n)).toFinset))

/-- The four-variant policy enum `ErrorBehavior` (selective_tools.py lines 52-65). -/
inductive ErrorBehavior where
  | ignore
  | strict
  | warn
  | fallback
deriving DecidableEq

/-- A tool, reduced to the attributes this middleware reads or fabricates:
its unique `key` (name), its `description`, and the string its invocation
returns (only meaningful for the synthetic notice tool, whose wrapped
function returns a message). -/
structure Tool where
  key : String
  description : String
  invokeResult : String
deriving DecidableEq

/-- The request-scoped context object; `selected_tools` models the value of
`get_state("selected_tools")`, with `none` for an unset slot. -/
structure FastmcpContext where
  selected_tools : Option (Finset String)

/-- The middleware context; `fastmcp_context` is `none` when no request
context is attached (selective_tools.py line 108). -/
structure MiddlewareContext where
  fastmcp_context : Option FastmcpContext

/-- The `NotFoundError` raised under the Strict policy, carrying its message. -/
structure NotFoundError where
  message : String
deriving DecidableEq

/-- Equality of `Except` values is decidable componentwise. -/
instance {ε α : Type} [DecidableEq ε] [DecidableEq α] : DecidableEq (Except ε α)
  | .ok x, .ok y =>
    if h : x = y then .isTrue (by rw [h]) else .isFalse (by intro hc; cases hc; exact h rfl)
  | .ok _, .error _ => .isFalse (by intro hc; cases hc)
  | .error _, .ok _ => .isFalse (by intro hc; cases hc)
  | .error e, .error f =>
    if h : e = f then .isTrue (by rw [h]) else .isFalse (by intro hc; cases hc; exact h rfl)

/-- Lexicographic comparison of character lists, as a Bool (so that it
evaluates by plain structural recursion).  `charsLe_iff` below identifies it
with the standard lexicographic order on `List Char`. -/
def charsLe : List Char → List Char → Bool
  | [], _ => true
  | _ :: _, [] => false
  | a :: as, b :: bs =>
    if a < b then true
    else if b < a then false
    else charsLe as bs

/-- Python string comparison `a <= b`: lexicographic by code point. -/
def strLe (a b : String) : Bool := charsLe a.toList b.toList

theorem charsLe_iff (x y : List Char) :
    charsLe x y = true ↔ ¬ List.Lex (· < ·) y x := by
  induction x generalizing y with
  | nil =>
    simp only [charsLe, true_iff]
    intro h
    nomatch h
  | cons a as ih =>
    cases y with
    | nil =>
      simp only [charsLe, Bool.false_eq_true, false_iff, not_not]
      exact List.Lex.nil
    | cons b bs =>
      by_cases hab : a < b
      · simp only [charsLe, if_pos hab, true_iff]
        intro h
        cases h with
        | cons h' => exact lt_irrefl a hab
        | rel h' => exact Char.lt_asymm hab h'
      · by_cases hba : b < a
        · simp only [charsLe, if_neg hab, if_pos hba, Bool.false_eq_true, false_iff, not_not]
          exact List.Lex.rel hba
        · have heq : a = b := le_antisymm (not_lt.mp hba) (not_lt.mp hab)
          subst heq
          simp only [charsLe, if_neg hab, if_neg hba, ih bs]
          constructor
          · intro h hlt
            cases hlt with
            | cons h' => exact h h'
            | rel h' => exact lt_irrefl a h'
          · intro h hlt
            exact h (List.Lex.cons hlt)

theorem strLe_iff (a b : String) : strLe a b = true ↔ a ≤ b := by
  rw [String.le_iff_toList_le, ← not_lt]
  exact charsLe_iff a.toList b.toList

theorem strLe_total (a b : String) (h : strLe a b = false) : strLe b a = true := by
  rw [strLe_iff]
  have : ¬ a ≤ b := by
    intro hle
    rw [← strLe_iff] at hle
    rw [h] at hle
    exact Bool.false_ne_true hle
  exact le_of_not_le this

theorem strLe_antisymm (a b : String) (h₁ : strLe a b = true) (h₂ : strLe b a = true) :
    a = b :=
  le_antisymm ((strLe_iff a b).mp h₁) ((strLe_iff b a).mp h₂)

/-- The order relation underlying `strLe`, for use with `List.Sorted`. -/
def strRel (a b : String) : Prop := strLe a b = true

/-- Insert a string into a sorted list, keeping it sorted. -/
def insertSorted (a : String) : List String → List String
  | [] => [a]
  | b :: l => if strLe a b then a :: b :: l else b :: insertSorted a l

/-- Insertion sort on lists of strings (structural recursion, so it evaluates
inside the kernel). -/
def insertionSortStr : List String → List String
  | [] => []
  | b :: l => insertSorted b (insertionSortStr l)

theorem mem_insertSorted (x a : String) (l : List String) :
    x ∈ insertSorted a l ↔ x = a ∨ x ∈ l := by
  induction l with
  | nil => simp [insertSorted]
  | cons b l ih =>
    by_cases h : strLe a b = true
    · simp [insertSorted, h]
    · simp only [insertSorted, if_neg h, List.mem_cons, ih]
      tauto

theorem perm_insertSorted (a : String) (l : List String) :
    List.Perm (insertSorted a l) (a :: l) := by
  induction l with
  | nil => exact List.Perm.refl [a]
  | cons b l ih =>
    by_cases h : strLe a b = true
    · rw [insertSorted, if_pos h]
    · rw [insertSorted, if_neg h]
      exact (ih.cons b).trans (List.Perm.swap a b l)

theorem sorted_insertSorted (a : String) (l : List String) (h : l.Sorted strRel) :
    (insertSorted a l).Sorted strRel := by
  induction l with
  | nil => simp [insertSorted, List.Sorted]
  | cons b l ih =>
    rw [List.sorted_cons] at h
    by_cases hab : strLe a b = true
    · rw [insertSorted, if_pos hab, List.sorted_cons]
      refine ⟨?_, List.sorted_cons.mpr h⟩
      intro x hx
      rcases List.mem_cons.mp hx with rfl | hx
      · exact hab
      · exact (strLe_iff a x).mpr (le_trans ((strLe_iff a b).mp hab)
          ((strLe_iff b x).mp (h.1 x hx)))
    · rw [insertSorted, if_neg hab, List.sorted_cons]
      refine ⟨?_, ih h.2⟩
      intro x hx
      rcases (mem_insertSorted x a l).mp hx with heq | hx
      · rw [heq]
        exact strLe_total a b (Bool.eq_false_iff.mpr hab)
      · exact h.1 x hx

theorem sorted_insertionSortStr (l : List String) :
    (insertionSortStr l).Sorted strRel := by
  induction l with
  | nil => simp [insertionSortStr, List.Sorted]
  | cons b l ih => exact sorted_insertSorted b (insertionSortStr l) ih

theorem perm_insertionSortStr (l : List String) : List.Perm (insertionSortStr l) l := by
  induction l with
  | nil => exact List.Perm.refl []
  | cons b l ih => exact (perm_insertSorted b (insertionSortStr l)).trans (ih.cons b)

/-- Insertion sort lifted to multisets: well defined because a sorted
enumeration of a multiset is unique (`strLe` is antisymmetric). -/
def sortedOfMultiset (m : Multiset String) : List String :=
  Quotient.liftOn m insertionSortStr fun l₁ l₂ h =>
    @List.eq_of_perm_of_sorted _ strRel ⟨strLe_antisymm⟩ _ _
      ((perm_insertionSortStr l₁).trans (h.trans (perm_insertionSortStr l₂).symm))
      (sorted_insertionSortStr l₁) (sorted_insertionSortStr l₂)

theorem coe_sortedOfMultiset (m : Multiset String) :
    (sortedOfMultiset m : Multiset String) = m :=
  Quotient.inductionOn m fun l => Quot.sound (perm_insertionSortStr l)

theorem sorted_sortedOfMultiset (m : Multiset String) :
    (sortedOfMultiset m).Sorted strRel :=
  Quotient.inductionOn m fun l => sorted_insertionSortStr l

/-- Python `sorted(s)` for a set of strings: the elements of the set listed in
increasing lexicographic order.  `sortedNames_eq_sort` identifies it with
Mathlib's canonical `Finset.sort`. -/
def sortedNames (s : Finset String) : List String := sortedOfMultiset s.val

/-- `sortedNames` agrees with the canonical sorted enumeration of a finite set
of strings under the lexicographic order. -/
theorem sortedNames_eq_sort (s : Finset String) : sortedNames s = s.sort (· ≤ ·) := by
  apply List.eq_of_perm_of_sorted (r := (· ≤ ·))
  · apply Multiset.coe_eq_coe.mp
    rw [sortedNames, coe_sortedOfMultiset, Finset.sort_eq]
  · exact List.Pairwise.imp (fun h => (strLe_iff _ _).mp h) (sorted_sortedOfMultiset s.val)
  · exact Finset.sort_sorted (· ≤ ·) s

/-- Python `", ".join(sorted(s))`. -/
def joinNames (s : Finset String) : String := String.intercalate ", " (sortedNames s)

/-- `available_tools = {t.key for t in tools}` (line 118). -/
def availableOf (tools : List Tool) : Finset String := (tools.map Tool.key).toFinset

/-- `valid_tools = selected_tools & available_tools` (line 119). -/
def validOf (sel : Finset String) (tools : List Tool) : Finset String :=
  sel ∩ availableOf tools

/-- `invalid_tools = selected_tools - available_tools` (line 120). -/
def invalidOf (sel : Finset String) (tools : List Tool) : Finset String :=
  sel \ availableOf tools

/-- The string returned when the synthetic notice tool is invoked
(the inner `error_notice` function, lines 174-180). -/
def errorNoticeText (invalid_tools available_tools : Finset String) : String :=
  "⚠️ CONFIGURATION ERROR: The following tools were requested but do not exist: " ++
    joinNames invalid_tools ++ ". " ++
    "\n\nAvailable tools: " ++ joinNames available_tools ++ ". " ++
    "\n\nPlease notify the administrator to update the tool selection URL."

/-- `SelectiveToolMiddleware._create_error_notice_tool` (lines 161-189):
fabricates a fresh `Tool` named `_selection_error_notice` whose description
embeds the sorted invalid names and whose invocation returns the notice text. -/
def create_error_notice_tool (invalid_tools available_tools : Finset String) : Tool :=
  { key := "_selection_error_notice"
    description := "⚠️ ERROR NOTICE: Requested tools not found: " ++
      joinNames invalid_tools ++ ". Call this tool to see the full error message."
    invokeResult := errorNoticeText invalid_tools available_tools }

/-- `SelectiveToolMiddleware.on_list_tools` (lines 87-159).  `tools` is the
downstream list produced by `await call_next(context)`; raising becomes
returning `.error`. -/
def on_list_tools (error_behavior : ErrorBehavior) (context : MiddlewareContext)
    (tools : List Tool) : Except NotFoundError (List Tool) :=
  match context.fastmcp_context with
  | none => .ok tools
  | some fctx =>
    match fctx.selected_tools with
    | none => .ok tools
    | some selected_tools =>
      if invalidOf selected_tools tools = ∅ then
        -- `return [t for t in tools if t.key in selected_tools]`
        .ok (tools.filter (fun t => decide (t.key ∈ selected_tools)))
      else
        match error_behavior with
        | .ignore =>
          .ok (tools.filter (fun t => decide (t.key ∈ validOf selected_tools tools)))
        | .strict =>
          .error ⟨"Requested tools not found: " ++ joinNames (invalidOf selected_tools tools) ++
            ". Available tools: " ++ joinNames (availableOf tools)⟩
        | .warn =>
          .ok ((tools.filter (fun t => decide (t.key ∈ validOf selected_tools tools))) ++
            [create_error_notice_tool (invalidOf selected_tools tools) (availableOf tools)])
        | .fallback =>
          .ok tools

/-- Context with an attached request context holding the given selection slot. -/
def ctxWith (sel : Option (Finset String)) : MiddlewareContext := ⟨some ⟨sel⟩⟩

/-- Context with no attached request context (`context.fastmcp_context is None`). -/
def ctxNone : MiddlewareContext := ⟨none⟩

/-- Sample tools used to instantiate the universally quantified theorems below
at concrete inputs. -/
def toolT1 : Tool := ⟨"t1", "tool one", "result one"⟩

def toolT2 : Tool := ⟨"t2", "tool two", "result two"⟩

def toolT3 : Tool := ⟨"t3", "tool three", "result three"⟩

def sampleTools : List Tool := [toolT1, toolT2, toolT3]

/-! ### Supporting lemmas about the parser's segment pipeline -/

theorem trimChars_eq_nil_iff (l : List Char) :
    trimChars l = [] ↔ ∀ c ∈ l, isSpaceChar c = true := by
  constructor
  · intro h c hc
    rw [trimChars, List.reverse_eq_nil_iff, List.dropWhile_eq_nil_iff] at h
    have hdrop : ∀ x ∈ l.dropWhile isSpaceChar, isSpaceChar x = true := fun x hx =>
      h x (List.mem_reverse.mpr hx)
    rcases List.mem_append.mp
        (by rw [List.takeWhile_append_dropWhile] ; exact hc :
          c ∈ l.takeWhile isSpaceChar ++ l.dropWhile isSpaceChar) with hc' | hc'
    · exact List.mem_takeWhile_imp hc'
    · exact hdrop c hc'
  · intro h
    rw [trimChars, List.dropWhile_eq_nil_iff.mpr h]
    rfl

theorem space_not_sep {c : Char} (h : isSpaceChar c = true) : isSepChar c = false := by
  cases heq : c == '/' with
  | true =>
    rw [eq_of_beq heq] at h
    exact absurd h (by decide)
  | false =>
    cases heq2 : c == ',' with
    | true =>
      rw [eq_of_beq heq2] at h
      exact absurd h (by decide)
    | false =>
      rw [isSepChar, heq, heq2]
      rfl

theorem splitChars_no_sep (l : List Char) (h : ∀ c ∈ l, isSepChar c = false) :
    splitChars l = [l] := by
  induction l with
  | nil => rfl
  | cons c cs ih =>
    have hc : isSepChar c = false := h c (List.mem_cons_self c cs)
    rw [splitChars, if_neg (by rw [hc] ; exact Bool.false_ne_true),
      ih (fun d hd => h d (List.mem_cons_of_mem c hd))]

theorem segmentsOf_nil : segmentsOf [] = [] := rfl

theorem segmentsOf_eq_nil_of_trim (cs : List Char) (h : trimChars cs = []) :
    segmentsOf cs = [] := by
  have hsp : ∀ c ∈ cs, isSpaceChar c = true := (trimChars_eq_nil_iff cs).mp h
  rw [segmentsOf, splitChars_no_sep cs (fun c hc => space_not_sep (hsp c hc))]
  simp [h]

theorem parse_cond_of_segments_ne (s : String) (h : segmentsOf s.toList ≠ []) :
    ¬(s.toList = [] ∨ trimChars s.toList = []) := by
  rintro (h0 | h0)
  · rw [h0] at h
    exact h segmentsOf_nil
  · exact h (segmentsOf_eq_nil_of_trim _ h0)

theorem parse_eq_none_of_segments_nil (s : String) (h : segmentsOf s.toList = []) :
    parse_tool_names s = .ok none := by
  by_cases h0 : s.toList = [] ∨ trimChars s.toList = []
  · simp only [parse_tool_names, if_pos h0]
  · simp only [parse_tool_names, if_neg h0, if_pos h]

theorem parse_eq_some_of_valid (s : String) (h1 : segmentsOf s.toList ≠ [])
    (h2 : ∀ seg ∈ segmentsOf s.toList, validSeg seg = true) :
    parse_tool_names s =
      .ok (some (((segmentsOf s.toList).map (fun n => String.mk n)).toFinset)) := by
  have hfind : (segmentsOf s.toList).find? (fun n => !(validSeg n)) = none :=
    List.find?_eq_none.mpr (fun x hx => by rw [h2 x hx] ; exact Bool.false_ne_true)
  simp only [parse_tool_names, if_neg (parse_cond_of_segments_ne s h1), if_neg h1, hfind]

/-! ### Supporting lemmas about the filter -/

theorem invalidOf_eq_empty_iff (sel : Finset String) (tools : List Tool) :
    invalidOf sel tools = ∅ ↔ ∀ n ∈ sel, n ∈ availableOf tools := by
  rw [invalidOf, Finset.sdiff_eq_empty_iff_subset]
  exact ⟨fun h n hn => h hn, fun h n hn => h n hn⟩

theorem invalidOf_ne_empty (sel : Finset String) (tools : List Tool)
    (h : ∃ n ∈ sel, n ∉ availableOf tools) : invalidOf sel tools ≠ ∅ := by
  intro h0
  obtain ⟨n, hn, hn'⟩ := h
  exact hn' ((invalidOf_eq_empty_iff sel tools).mp h0 n hn)

/-! ### Claim theorems -/

/-- C5: for every tool list and every behavior, when the selection is Absent
(`selected_tools` is `None`) the filter returns the input tool list unchanged,
preserving elements and order. -/
theorem absent_selection_returns_all (b : ErrorBehavior) (tools : List Tool) :
    on_list_tools b (ctxWith none) tools = .ok tools := rfl

/-- C10: for every tool list and every behavior, when no request context is
attached (`context.fastmcp_context is None`) the filter returns the downstream
tool list unchanged — exactly the same result as when the selection is Absent. -/
theorem no_context_returns_all (b : ErrorBehavior) (tools : List Tool) :
    on_list_tools b ctxNone tools = .ok tools ∧
    on_list_tools b ctxNone tools = on_list_tools b (ctxWith none) tools :=
  ⟨rfl, rfl⟩

/-- C2: for every tool list, every (possibly empty) selection whose names are
all among the tool names, and every behavior, the filter returns exactly the
tools whose key is in the selection, in input-list order, independently of the
behavior; in particular an explicitly empty selection yields the empty list. -/
theorem all_valid_filters_by_selection (tools : List Tool) (sel : Finset String)
    (b : ErrorBehavior) (h : ∀ n ∈ sel, n ∈ availableOf tools) :
    on_list_tools b (ctxWith (some sel)) tools =
      .ok (tools.filter (fun t => decide (t.key ∈ sel))) ∧
    (sel = ∅ → on_list_tools b (ctxWith (some sel)) tools = .ok []) := by
  have hinv : invalidOf sel tools = ∅ := (invalidOf_eq_empty_iff sel tools).mpr h
  have hmain : on_list_tools b (ctxWith (some sel)) tools =
      .ok (tools.filter (fun t => decide (t.key ∈ sel))) := by
    simp only [on_list_tools, ctxWith, if_pos hinv]
  refine ⟨hmain, fun hsel => ?_⟩
  rw [hmain]
  congr 1
  rw [List.filter_eq_nil_iff]
  intro t _
  rw [hsel]
  simp

/-- C2 instantiated: with tools `t1,t2,t3` and selection `{t1,t3}` every
behavior returns exactly `[t1, t3]`, and the empty selection returns `[]`. -/
theorem all_valid_filters_by_selection_witness :
    on_list_tools .strict (ctxWith (some {"t1", "t3"})) sampleTools = .ok [toolT1, toolT3] ∧
    on_list_tools .warn (ctxWith (some ∅)) sampleTools = .ok [] := by
  constructor
  · rw [(all_valid_filters_by_selection sampleTools {"t1", "t3"} .strict (by decide)).1]
    decide
  · exact (all_valid_filters_by_selection sampleTools ∅ .warn (by decide)).2 rfl

/-- C6: under Ignore, for every tool list and every selection containing at
least one name that is not a tool name, the filter returns exactly the tools
whose key lies in the intersection of the selection with the available names,
in input order, silently dropping the invalid names. -/
theorem ignore_drops_invalid (tools : List Tool) (sel : Finset String)
    (h : ∃ n ∈ sel, n ∉ availableOf tools) :
    on_list_tools .ignore (ctxWith (some sel)) tools =
      .ok (tools.filter (fun t => decide (t.key ∈ sel ∩ availableOf tools))) := by
  simp only [on_list_tools, ctxWith, if_neg (invalidOf_ne_empty sel tools h)]
  rfl

/-- C6 instantiated: selection `{t1, bogus}` under Ignore returns `[t1]`. -/
theorem ignore_drops_invalid_witness :
    on_list_tools .ignore (ctxWith (some {"t1", "bogus"})) sampleTools = .ok [toolT1] := by
  rw [ignore_drops_invalid sampleTools {"t1", "bogus"} ⟨"bogus", by decide, by decide⟩]
  decide

/-- C8: under Fallback, for every tool list and every selection containing at
least one name that is not a tool name, the filter returns the full input tool
list unchanged. -/
theorem fallback_returns_all (tools : List Tool) (sel : Finset String)
    (h : ∃ n ∈ sel, n ∉ availableOf tools) :
    on_list_tools .fallback (ctxWith (some sel)) tools = .ok tools := by
  simp only [on_list_tools, ctxWith, if_neg (invalidOf_ne_empty sel tools h)]

/-- C8 instantiated: selection `{t1, bogus}` under Fallback returns all of
`t1,t2,t3`. -/
theorem fallback_returns_all_witness :
    on_list_tools .fallback (ctxWith (some {"t1", "bogus"})) sampleTools =
      .ok [toolT1, toolT2, toolT3] :=
  fallback_returns_all sampleTools {"t1", "bogus"} ⟨"bogus", by decide, by decide⟩

/-- C7: under Warn, for every tool list and every selection containing at least
one name that is not a tool name, the filter returns the valid-keyed tools in
input order plus exactly one synthetic placeholder appended at the end; the
placeholder is fabricated fresh by `create_error_notice_tool` from this call's
invalid and available name sets (not drawn from the stored tool list), its
description embeds the invalid names in sorted order (`Finset.sort (· ≤ ·)`),
and its invocation returns the human-readable notice text. -/
theorem warn_appends_notice (tools : List Tool) (sel : Finset String)
    (h : ∃ n ∈ sel, n ∉ availableOf tools) :
    on_list_tools .warn (ctxWith (some sel)) tools =
      .ok ((tools.filter (fun t => decide (t.key ∈ sel ∩ availableOf tools))) ++
        [create_error_notice_tool (invalidOf sel tools) (availableOf tools)]) ∧
    (create_error_notice_tool (invalidOf sel tools) (availableOf tools)).description =
      "⚠️ ERROR NOTICE: Requested tools not found: " ++
        String.intercalate ", " ((invalidOf sel tools).sort (· ≤ ·)) ++
        ". Call this tool to see the full error message." ∧
    (create_error_notice_tool (invalidOf sel tools) (availableOf tools)).invokeResult =
      errorNoticeText (invalidOf sel tools) (availableOf tools) := by
  refine ⟨?_, ?_, rfl⟩
  · simp only [on_list_tools, ctxWith, if_neg (invalidOf_ne_empty sel tools h)]
    rfl
  · rw [create_error_notice_tool, joinNames, sortedNames_eq_sort]

/-- C7 instantiated: selection `{t1, bogus}` under Warn returns `t1` plus one
placeholder whose description mentions `bogus`. -/
theorem warn_appends_notice_witness :
    on_list_tools .warn (ctxWith (some {"t1", "bogus"})) sampleTools =
      .ok [toolT1, create_error_notice_tool {"bogus"} {"t1", "t2", "t3"}] ∧
    (create_error_notice_tool ({"bogus"} : Finset String) {"t1", "t2", "t3"}).description =
      "⚠️ ERROR NOTICE: Requested tools not found: bogus. Call this tool to see the full error message." := by
  have h := warn_appends_notice sampleTools {"t1", "bogus"} ⟨"bogus", by decide, by decide⟩
  constructor
  · rw [h.1]
    decide
  · decide

/-- C1: the filter raises (returns an error) exactly when the behavior is
Strict and the set of requested names absent from the tool names is non-empty;
under Ignore, Warn and Fallback it never raises; and when it raises, the error
message embeds the invalid names and the full available-name set, each joined
in sorted order (`joinNames` lists a set in increasing lexicographic order, by
`sortedNames_eq_sort`). -/
theorem strict_raises_iff (tools : List Tool) (sel : Finset String) (b : ErrorBehavior) :
    ((∃ e, on_list_tools b (ctxWith (some sel)) tools = .error e) ↔
      (b = .strict ∧ invalidOf sel tools ≠ ∅)) ∧
    (b = .strict → invalidOf sel tools ≠ ∅ →
      on_list_tools b (ctxWith (some sel)) tools =
        .error ⟨"Requested tools not found: " ++ joinNames (invalidOf sel tools) ++
          ". Available tools: " ++ joinNames (availableOf tools)⟩) := by
  by_cases hinv : invalidOf sel tools = ∅
  · refine ⟨⟨?_, ?_⟩, fun _ hne => absurd hinv hne⟩
    · rintro ⟨e, he⟩
      rw [show on_list_tools b (ctxWith (some sel)) tools =
          .ok (tools.filter (fun t => decide (t.key ∈ sel))) by
        simp only [on_list_tools, ctxWith, if_pos hinv]] at he
      exact absurd he (by simp)
    · rintro ⟨_, hne⟩
      exact absurd hinv hne
  · cases b with
    | strict =>
      have hres : on_list_tools .strict (ctxWith (some sel)) tools =
          .error ⟨"Requested tools not found: " ++ joinNames (invalidOf sel tools) ++
            ". Available tools: " ++ joinNames (availableOf tools)⟩ := by
        simp only [on_list_tools, ctxWith, if_neg hinv]
      exact ⟨⟨fun _ => ⟨rfl, hinv⟩, fun _ => ⟨_, hres⟩⟩, fun _ _ => hres⟩
    | ignore =>
      refine ⟨⟨?_, ?_⟩, fun hb => nomatch hb⟩
      · rintro ⟨e, he⟩
        rw [show on_list_tools .ignore (ctxWith (some sel)) tools =
            .ok (tools.filter (fun t => decide (t.key ∈ validOf sel tools))) by
          simp only [on_list_tools, ctxWith, if_neg hinv]] at he
        exact absurd he (by simp)
      · rintro ⟨hb, _⟩
        exact nomatch hb
    | warn =>
      refine ⟨⟨?_, ?_⟩, fun hb => nomatch hb⟩
      · rintro ⟨e, he⟩
        rw [show on_list_tools .warn (ctxWith (some sel)) tools =
            .ok ((tools.filter (fun t => decide (t.key ∈ validOf sel tools))) ++
              [create_error_notice_tool (invalidOf sel tools) (availableOf tools)]) by
          simp only [on_list_tools, ctxWith, if_neg hinv]] at he
        exact absurd he (by simp)
      · rintro ⟨hb, _⟩
        exact nomatch hb
    | fallback =>
      refine ⟨⟨?_, ?_⟩, fun hb => nomatch hb⟩
      · rintro ⟨e, he⟩
        rw [show on_list_tools .fallback (ctxWith (some sel)) tools = .ok tools by
          simp only [on_list_tools, ctxWith, if_neg hinv]] at he
        exact absurd he (by simp)
      · rintro ⟨hb, _⟩
        exact nomatch hb

/-- C1 instantiated: with tools `t1,t2,t3` and selection `{t1, bogus}`, Strict
raises with the exact message listing `bogus` and the sorted available names,
while Warn (for example) does not raise. -/
theorem strict_raises_iff_witness :
    on_list_tools .strict (ctxWith (some {"t1", "bogus"})) sampleTools =
      .error ⟨"Requested tools not found: bogus. Available tools: t1, t2, t3"⟩ ∧
    ¬(∃ e, on_list_tools .warn (ctxWith (some {"t1", "bogus"})) sampleTools = .error e) := by
  constructor
  · rw [(strict_raises_iff sampleTools {"t1", "bogus"} .strict).2 rfl (by decide)]
    decide
  · intro hex
    rcases (strict_raises_iff sampleTools {"t1", "bogus"} .warn).1.mp hex with ⟨hb, _⟩
    exact nomatch hb

/-- C3: for every input whose trimmed segments are all valid names, the parser
returns Absent (`none`) exactly when no segments remain (which covers empty and
whitespace-only inputs, since those produce no segments), and otherwise the set
of the segments; consequently two inputs with the same segment set — whatever
the separators, the segment order, or the duplications — parse identically. -/
theorem parse_valid_segments (s : String)
    (h : ∀ seg ∈ segmentsOf s.toList, validSeg seg = true) :
    parse_tool_names s =
      .ok (if segmentsOf s.toList = [] then none
        else some (((segmentsOf s.toList).map (fun n => String.mk n)).toFinset)) ∧
    ∀ t : String, (∀ seg ∈ segmentsOf t.toList, validSeg seg = true) →
      ((segmentsOf s.toList).map (fun n => String.mk n)).toFinset =
        ((segmentsOf t.toList).map (fun n => String.mk n)).toFinset →
      parse_tool_names s = parse_tool_names t := by
  constructor
  · by_cases hseg : segmentsOf s.toList = []
    · rw [if_pos hseg]
      exact parse_eq_none_of_segments_nil s hseg
    · rw [if_neg hseg]
      exact parse_eq_some_of_valid s hseg h
  · intro t ht hset
    by_cases hseg : segmentsOf s.toList = []
    · have hsegt : segmentsOf t.toList = [] := by
        have he : ((segmentsOf t.toList).map (fun n => String.mk n)).toFinset = ∅ := by
          rw [← hset, hseg]
          rfl
        have hmap := (List.toFinset_eq_empty_iff _).mp he
        exact List.map_eq_nil_iff.mp hmap
      rw [parse_eq_none_of_segments_nil s hseg, parse_eq_none_of_segments_nil t hsegt]
    · have hsegt : segmentsOf t.toList ≠ [] := by
        intro h0
        apply hseg
        have he : ((segmentsOf s.toList).map (fun n => String.mk n)).toFinset = ∅ := by
          rw [hset, h0]
          rfl
        exact List.map_eq_nil_iff.mp ((List.toFinset_eq_empty_iff _).mp he)
      rw [parse_eq_some_of_valid s hseg h, parse_eq_some_of_valid t hsegt ht, hset]

/-- C3 instantiated: `"a/a,b"` parses to `{a, b}` (duplicates collapse, mixed
separators allowed) and agrees with `"b , a"` (different separators, order and
surrounding whitespace). -/
theorem parse_valid_segments_witness :
    parse_tool_names "a/a,b" = .ok (some {"a", "b"}) ∧
    parse_tool_names "a/a,b" = parse_tool_names "b , a" := by
  have h := parse_valid_segments "a/a,b" (by decide)
  constructor
  · rw [h.1]
    decide
  · exact h.2 "b , a" (by decide) (by decide)

/-- C4: for every input string, if some trimmed non-empty segment is not a
valid name, the parser fails with `InvalidNameError` carrying the first
offending segment in segment order (every earlier segment being valid), rather
than dropping it and returning a set. -/
theorem parse_invalid_segment (s : String) (pre post : List (List Char)) (bad : List Char)
    (hsplit : segmentsOf s.toList = pre ++ bad :: post)
    (hpre : ∀ x ∈ pre, validSeg x = true)
    (hbad : validSeg bad = false) :
    parse_tool_names s = .error (.invalidName (String.mk bad)) := by
  have hne : segmentsOf s.toList ≠ [] := by
    rw [hsplit]
    simp
  have hfind : (segmentsOf s.toList).find? (fun n => !(validSeg n)) = some bad := by
    rw [hsplit, List.find?_append,
      List.find?_eq_none.mpr (fun x hx => by rw [hpre x hx] ; exact Bool.false_ne_true),
      Option.none_or, List.find?_cons_of_pos _ (by rw [hbad] ; rfl)]
  simp only [parse_tool_names, if_neg (parse_cond_of_segments_ne s hne), if_neg hne, hfind]

/-- C4 instantiated: `"a-b"` (one segment, failing the name regex at the `-`)
fails with `InvalidNameError` carrying `a-b`. -/
theorem parse_invalid_segment_witness :
    parse_tool_names "a-b" = .error (.invalidName "a-b") :=
  parse_invalid_segment "a-b" [] [] ['a', '-', 'b'] (by decide) (by decide) (by decide)

/-- C9: whenever the parser succeeds with a non-Absent result, the returned set
is non-empty and every element is a valid name (so the parser never produces an
empty selection set, nor a name containing whitespace or separators — such
characters fail `validSeg`). -/
theorem parse_success_invariant (s : String) (t : Finset String)
    (h : parse_tool_names s = .ok (some t)) :
    t.Nonempty ∧ ∀ n ∈ t, validName n = true := by
  by_cases h0 : s.toList = [] ∨ trimChars s.toList = []
  · rw [parse_tool_names] at h
    rw [if_pos h0] at h
    exact absurd h (by simp)
  by_cases h1 : segmentsOf s.toList = []
  · simp only [parse_tool_names, if_neg h0, if_pos h1] at h
    exact absurd h (by simp)
  cases hfind : (segmentsOf s.toList).find? (fun n => !(validSeg n)) with
  | some bad =>
    simp only [parse_tool_names, if_neg h0, if_neg h1, hfind] at h
    exact absurd h (by simp)
  | none =>
    simp only [parse_tool_names, if_neg h0, if_neg h1, hfind, Except.ok.injEq,
      Option.some.injEq] at h
    subst h
    constructor
    · cases hsegs : segmentsOf s.toList with
      | nil => exact absurd hsegs h1
      | cons a as =>
        exact ⟨String.mk a, by simp⟩
    · intro n hn
      rw [List.mem_toFinset] at hn
      obtain ⟨seg, hseg, rfl⟩ := List.mem_map.mp hn
      have hnotbad := List.find?_eq_none.mp hfind seg hseg
      cases hval : validSeg seg with
      | true => exact hval
      | false => exact absurd (by rw [hval] ; rfl) hnotbad

/-- C9 instantiated at `"a/b"`, which parses to `{a, b}`. -/
theorem parse_success_invariant_witness :
    ({"a", "b"} : Finset String).Nonempty ∧
      ∀ n ∈ ({"a", "b"} : Finset String), validName n = true :=
  parse_success_invariant "a/b" {"a", "b"} (by decide)

end SelectiveTools
